import Mathlib

/-!
# Verification of the go-bitmaptable bit-packed table

The Go source stores a fixed `rows × columns` matrix of bits inside a
byte buffer.  The embedding below follows `bitmaptable.go` line by
line:

* a Go byte is a `Nat` (kept below 256 by the operations),
* a byte slice is a `List Nat`; a slice read `s[i]` panics in Go when
  `i` lies outside `[0, len s)`, which `goIndex` models by `Option`
  with `none` standing for the panic,
* Go `int` values are modelled as `Int`; the explicit conversions
  `uint64(...)`, `uint16(...)` and `int(...)` appearing in the source
  are modelled by the `go...` functions below.  The product
  `rows * columns` inside `calculateSize` overflows a 64-bit `int`
  for constructions the claims quantify over, so it is modelled by
  the wrapping multiplication `goMul` (Go integer overflow is defined
  two's-complement wrap-around).  The linear-position arithmetic of
  `getPos` is kept on `Int`: every statement below evaluates it only
  at concrete small coordinates or at valid coordinates of a
  well-formed table (`WF`), where the position lies below
  `rows * columns < 2^63` and `Int` agrees with Go exactly,
* Go's `/` and `%` on `int` truncate toward zero, which is `Int.tdiv`
  and `Int.tmod`,
* `make([]byte, n)` zero-fills for `0 ≤ n` and panics for a negative
  `n`, which `goMake` models by `Option`.
-/

/-- Go slice read `l[i]`: `none` models the runtime panic on an
out-of-range index. -/
def goIndex (l : List Nat) (i : Int) : Option Nat :=
  if 0 ≤ i ∧ i < l.length then some (l.getD i.toNat 0) else none

/-- Go conversion `uint64(x)`: reduction modulo `2 ^ 64`. -/
def goUint64 (x : Int) : Int := x % (2 : Int) ^ 64

/-- Go conversion `uint16(x)`: reduction modulo `2 ^ 16`. -/
def goUint16 (x : Int) : Int := x % (2 : Int) ^ 16

/-- Go conversion `int(x)` applied to a `uint64` value in `[0, 2^64)`:
two's-complement reinterpretation on a 64-bit platform. -/
def goIntOfUint64 (x : Int) : Int := if x < 2 ^ 63 then x else x - 2 ^ 64

/-- Reduction of an integer into the 64-bit `int` range
`[-2^63, 2^63)`: Go's defined two's-complement wrap-around. -/
def goInt64 (z : Int) : Int := (z + 2 ^ 63) % 2 ^ 64 - 2 ^ 63

/-- Go multiplication of two `int` values: 64-bit, wraps on
overflow. -/
def goMul (x y : Int) : Int := goInt64 (x * y)

/-- `make([]byte, n)`: a zero-filled slice of length `n` when
`0 ≤ n`; Go panics when `n` is negative, which `none` models. -/
def goMake (n : Int) : Option (List Nat) :=
  if 0 ≤ n then some (List.replicate n.toNat 0) else none

/-- `var tA = [8]byte{1, 2, 4, 8, 16, 32, 64, 128}` from the source. -/
def tA : List Nat := [1, 2, 4, 8, 16, 32, 64, 128]

/-- `var tB = [8]byte{254, 253, 251, 247, 239, 223, 191, 127}` from the
source. -/
def tB : List Nat := [254, 253, 251, 247, 239, 223, 191, 127]

/-- `setBit` from the source: sets bit `bit` of byte `b` to value `v`.
The table accesses `tA[bit]` / `tB[bit]` panic on an invalid index. -/
def setBit (b : Nat) (bit : Int) (v : Bool) : Option Nat :=
  if v then (goIndex tA bit).map fun m => b ||| m
  else (goIndex tB bit).map fun m => b &&& m

/-- `getBit` from the source: the value of bit `bit` inside byte `b`. -/
def getBit (b : Nat) (bit : Int) : Option Bool :=
  (goIndex tA bit).map fun m => decide (b &&& m ≠ 0)

/-- `calculateSize` from the source; the product `rows * columns` is
64-bit `int` multiplication and wraps on overflow (`goMul`), `/` and
`%` are Go's truncated division on `int` (no further overflow: the
wrapped product's magnitude only shrinks). -/
def calculateSize (rows columns : Int) : Int :=
  let size := (goMul rows columns).tdiv 8
  if (goMul rows columns).tmod 8 ≠ 0 then size + 1 else size

/-- The `bitmaptable` struct.  `rows` holds the value of the `uint64`
field, `columns` the value of the `uint16` field, `bitmap` the byte
buffer. -/
structure bitmaptable where
  rows : Int
  columns : Int
  bitmap : List Nat
deriving DecidableEq, Repr

/-- `newNTS` from the source: the buffer is
`make([]byte, calculateSize(rows, columns))`.  When the wrapped size
is negative Go's `make` panics and no table is ever created; the
`getD` fallback keeps this model total, and no theorem below asserts
anything about a table at such arguments — every statement about
`newNTS` restricts to (or evaluates at) arguments whose size is
non-negative, where `goMake` is exact. -/
def newNTS (rows columns : Int) : bitmaptable :=
  { rows := goUint64 rows
    columns := goUint16 columns
    bitmap := (goMake (calculateSize rows columns)).getD [] }

/-- `getPos` from the source: the byte index and the bit index of a
coordinate.  `int(b.columns)` is the identity on the stored `uint16`
value. -/
def bitmaptable.getPos (b : bitmaptable) (row column : Int) : Int × Int :=
  let pos := row * b.columns + column
  (pos.tdiv 8, pos.tmod 8)

/-- `Rows` from the source: `int(b.rows)` reinterprets the `uint64`
field as a signed 64-bit value. -/
def bitmaptable.Rows (b : bitmaptable) : Int := goIntOfUint64 b.rows

/-- `Columns` from the source: `int(b.columns)` is the identity on the
stored `uint16` value. -/
def bitmaptable.Columns (b : bitmaptable) : Int := b.columns

/-- The only error value the bit-level path can return
(`ErrIllegalIndex` in the source). -/
inductive GoErr where
  | illegalIndex
deriving DecidableEq, Repr

deriving instance DecidableEq for Except

/-- `Data` at the level of byte values: both branches return the
buffer's content.  The aliased/copied distinction of the two branches
is a statement about slice references and is modelled on the heap
embedding further below. -/
def bitmaptable.Data (b : bitmaptable) (c : Bool) : List Nat := b.bitmap

/-- `Get` from the source: bounds check, then read the addressed bit.
`none` models a Go panic inside the body, which is possible only when
the check was passed with a negative coordinate. -/
def bitmaptable.Get (b : bitmaptable) (row column : Int) :
    Option (Except GoErr Bool) :=
  if b.Columns ≤ column ∨ b.Rows ≤ row then some (.error .illegalIndex)
  else
    let p := b.getPos row column
    (goIndex b.bitmap p.1).bind fun data =>
      (getBit data p.2).map fun v => .ok v

/-- `Set` from the source: bounds check, then write the addressed bit;
`.ok` carries the updated table (the Go method mutates in place). -/
def bitmaptable.Set (b : bitmaptable) (row column : Int) (value : Bool) :
    Option (Except GoErr bitmaptable) :=
  if b.Columns ≤ column ∨ b.Rows ≤ row then some (.error .illegalIndex)
  else
    let p := b.getPos row column
    (goIndex b.bitmap p.1).bind fun data =>
      (setBit data p.2 value).map fun nb =>
        .ok { b with bitmap := b.bitmap.set p.1.toNat nb }

/-- The byte produced by a successful `setBit data bit v` call, at the
level of plain natural numbers (`tA[i] = 2 ^ i`, `tB[i] = 255 - 2 ^ i`
for `i < 8`). -/
def setByte (b i : Nat) (v : Bool) : Nat :=
  if v then b ||| 2 ^ i else b &&& (255 - 2 ^ i)

/-- Bit `p` of a buffer under the spec's addressing convention: byte
`p / 8`, bit `p % 8`, where bit 0 is the least-significant bit of the
byte. -/
def bufBit (buf : List Nat) (p : Nat) : Bool :=
  (buf.getD (p / 8) 0).testBit (p % 8)

/-- The table produced by a successful `Set` whose linear bit position
is `p`: byte `p / 8` is replaced, every other byte kept. -/
def writeBitmap (t : bitmaptable) (p : Nat) (v : Bool) : bitmaptable :=
  ⟨t.rows, t.columns,
    t.bitmap.set (p / 8) (setByte (t.bitmap.getD (p / 8) 0) (p % 8) v)⟩

/-- The invariant holding of every table built by `newNTS` from
arguments a Go caller can supply for a meaningful table: the stored
fields in their unsigned ranges (with `rows` inside the non-negative
`int` range, as produced from a non-negative `int` argument), the
product of the counts inside the 64-bit `int` range — so the size
arithmetic of `calculateSize` did not wrap and the buffer really
holds `rows × columns` bits — the buffer at its construction length,
and all bytes below 256. -/
structure WF (t : bitmaptable) : Prop where
  rows_nonneg : 0 ≤ t.rows
  rows_lt : t.rows < 2 ^ 63
  cols_nonneg : 0 ≤ t.columns
  cols_lt : t.columns < 2 ^ 16
  prod_lt : t.rows * t.columns < 2 ^ 63
  len_eq : (t.bitmap.length : Int) = calculateSize t.rows t.columns
  bytes_lt : ∀ x ∈ t.bitmap, x < 256

/-!
## Heap embedding for `Data`

A Go slice header is a reference into the heap.  `Data(false)` returns
the table's own slice header, `Data(true)` allocates a fresh slice and
copies the buffer into it.  To state that contract we model a heap of
byte slices and a table whose buffer is a heap reference.
-/

/-- A heap of byte slices; a slice reference is an index into it. -/
structure Heap where
  slices : List (List Nat)
deriving DecidableEq, Repr

/-- The slice a reference denotes. -/
def Heap.slice (h : Heap) (r : Nat) : List Nat := h.slices.getD r []

/-- A caller mutation `s[i] = v` performed through slice reference
`r`. -/
def Heap.writeByte (h : Heap) (r i v : Nat) : Heap :=
  ⟨h.slices.set r ((h.slice r).set i v)⟩

/-- A `bitmaptable` whose buffer lives on the heap: the struct holds a
slice reference instead of the byte values. -/
structure HTable where
  rows : Int
  columns : Int
  bufRef : Nat
deriving DecidableEq, Repr

/-- Dereferencing the buffer yields the plain value-level table. -/
def HTable.toTable (t : HTable) (h : Heap) : bitmaptable :=
  { rows := t.rows, columns := t.columns, bitmap := h.slice t.bufRef }

/-- `Data` at the heap level, mirroring the source: with `c = false`
return the live slice reference unchanged; otherwise allocate a fresh
slice, copy the buffer into it and return the fresh reference. -/
def HTable.Data (t : HTable) (h : Heap) (c : Bool) : Heap × Nat :=
  if !c then (h, t.bufRef)
  else (⟨h.slices ++ [h.slice t.bufRef]⟩, h.slices.length)

/-- `Get` on a heap-resident table. -/
def HTable.Get (t : HTable) (h : Heap) (row column : Int) :
    Option (Except GoErr Bool) :=
  (t.toTable h).Get row column

/-!
## Thread-safe wrapper and the sequential operation model

`bitmaptable_ts.go` wraps the plain table together with a mutex.  The
mutex serializes concurrent calls and has no effect on sequential
semantics (`Lock`/`Unlock` are no-ops for a single caller), so it
carries no state in the embedding.  Every method delegates to the
wrapped table, exactly as in the source.
-/

/-- The `ts` struct from `bitmaptable_ts.go` (mutex omitted: it has no
sequential semantics). -/
structure ts where
  b : bitmaptable
deriving DecidableEq, Repr

/-- `newTS` from the source. -/
def newTS (rows columns : Int) : ts := ⟨newNTS rows columns⟩

/-- `ts.Rows` delegates to the wrapped table. -/
def ts.Rows (t : ts) : Int := t.b.Rows

/-- `ts.Columns` delegates to the wrapped table. -/
def ts.Columns (t : ts) : Int := t.b.Columns

/-- `ts.Data` locks, delegates, unlocks. -/
def ts.Data (t : ts) (c : Bool) : List Nat := t.b.Data c

/-- `ts.Get` delegates without locking. -/
def ts.Get (t : ts) (row column : Int) : Option (Except GoErr Bool) :=
  t.b.Get row column

/-- `ts.Set` locks, delegates, unlocks. -/
def ts.Set (t : ts) (row column : Int) (value : Bool) :
    Option (Except GoErr ts) :=
  (t.b.Set row column value).map fun r => r.map fun b' => ⟨b'⟩

/-- One call of the public sequential interface. -/
inductive Op where
  | rows
  | columns
  | get (row column : Int)
  | set (row column : Int) (value : Bool)
  | data (c : Bool)
deriving DecidableEq, Repr

/-- The observable outcome of one call.  A `Set` outcome is `none` for
a panic, `some (some e)` for a returned error and `some none` for
success. -/
inductive Out where
  | int (i : Int)
  | got (r : Option (Except GoErr Bool))
  | setRes (r : Option (Option GoErr))
  | bytes (l : List Nat)
deriving DecidableEq, Repr

/-- One step on the plain table.  A panicking `Set` (`none`) aborts the
Go program; the step keeps the state, which is immaterial for the
equivalence statement since both variants panic on exactly the same
call. -/
def runOp (t : bitmaptable) : Op → Out × bitmaptable
  | .rows => (.int t.Rows, t)
  | .columns => (.int t.Columns, t)
  | .get r c => (.got (t.Get r c), t)
  | .data c => (.bytes (t.Data c), t)
  | .set r c v =>
    match t.Set r c v with
    | none => (.setRes none, t)
    | some (.error e) => (.setRes (some (some e)), t)
    | some (.ok t') => (.setRes (some none), t')

/-- A sequence of calls on the plain table. -/
def run (t : bitmaptable) : List Op → List Out × bitmaptable
  | [] => ([], t)
  | op :: ops =>
    let s := runOp t op
    let rest := run s.2 ops
    (s.1 :: rest.1, rest.2)

/-- One step on the thread-safe table. -/
def runOpTS (t : ts) : Op → Out × ts
  | .rows => (.int t.Rows, t)
  | .columns => (.int t.Columns, t)
  | .get r c => (.got (t.Get r c), t)
  | .data c => (.bytes (t.Data c), t)
  | .set r c v =>
    match t.Set r c v with
    | none => (.setRes none, t)
    | some (.error e) => (.setRes (some (some e)), t)
    | some (.ok t') => (.setRes (some none), t')

/-- A sequence of calls on the thread-safe table. -/
def runTS (t : ts) : List Op → List Out × ts
  | [] => ([], t)
  | op :: ops =>
    let s := runOpTS t op
    let rest := runTS s.2 ops
    (s.1 :: rest.1, rest.2)

/-!
## Helper lemmas
-/

theorem goIndex_pos {l : List Nat} {i : Int} (h0 : 0 ≤ i)
    (hl : i < (l.length : Int)) : goIndex l i = some (l.getD i.toNat 0) := by
  unfold goIndex
  rw [if_pos ⟨h0, hl⟩]

theorem goIndex_neg {l : List Nat} {i : Int} (h : i < 0) : goIndex l i = none := by
  unfold goIndex
  rw [if_neg]
  intro hc
  omega

theorem tA_getD : ∀ i : Nat, i < 8 → tA.getD i 0 = 2 ^ i := by decide

theorem tB_getD : ∀ i : Nat, i < 8 → tB.getD i 0 = 255 - 2 ^ i := by decide

theorem tA_len : (tA.length : Int) = 8 := by decide

theorem tB_len : (tB.length : Int) = 8 := by decide

theorem getBit_eq {b : Nat} {i : Int} (h0 : 0 ≤ i) (h8 : i < 8) :
    getBit b i = some (b.testBit i.toNat) := by
  unfold getBit
  rw [goIndex_pos h0 (by rw [tA_len]; exact h8), Option.map_some',
    tA_getD i.toNat (by omega)]
  congr 1
  rw [Nat.and_two_pow]
  cases hbit : b.testBit i.toNat <;> simp

theorem setBit_eq {b : Nat} {i : Int} (h0 : 0 ≤ i) (h8 : i < 8) (v : Bool) :
    setBit b i v = some (setByte b i.toNat v) := by
  have hA : goIndex tA i = some (tA.getD i.toNat 0) :=
    goIndex_pos h0 (by rw [tA_len]; exact h8)
  have hB : goIndex tB i = some (tB.getD i.toNat 0) :=
    goIndex_pos h0 (by rw [tB_len]; exact h8)
  have hA' : tA[i.toNat]?.getD 0 = 2 ^ i.toNat := by
    have := h8
    interval_cases i <;> rfl
  have hB' : tB[i.toNat]?.getD 0 = 255 - 2 ^ i.toNat := by
    have := h8
    interval_cases i <;> rfl
  cases v
  · simp [setBit, setByte, hB, hB']
  · simp [setBit, setByte, hA, hA']

theorem tB_testBit_self : ∀ i : Nat, i < 8 → (255 - 2 ^ i).testBit i = false := by
  decide

theorem tB_testBit_ne :
    ∀ i : Nat, i < 8 → ∀ j : Nat, j < 8 → j ≠ i → (255 - 2 ^ i).testBit j = true := by
  decide

theorem setByte_testBit_self (b : Nat) {i : Nat} (h : i < 8) (v : Bool) :
    (setByte b i v).testBit i = v := by
  unfold setByte
  cases v
  · rw [if_neg (by simp), Nat.testBit_land, tB_testBit_self i h, Bool.and_false]
  · rw [if_pos rfl, Nat.testBit_lor, Nat.testBit_two_pow_self, Bool.or_true]

theorem setByte_testBit_ne (b : Nat) {i j : Nat} (hi : i < 8) (hj : j < 8)
    (hne : j ≠ i) (v : Bool) : (setByte b i v).testBit j = b.testBit j := by
  unfold setByte
  cases v
  · rw [if_neg (by simp), Nat.testBit_land, tB_testBit_ne i hi j hj hne,
      Bool.and_true]
  · rw [if_pos rfl, Nat.testBit_lor, Nat.testBit_two_pow_of_ne (by omega),
      Bool.or_false]

theorem setByte_lt (b : Nat) {i : Nat} (hb : b < 256) (hi : i < 8) (v : Bool) :
    setByte b i v < 256 := by
  unfold setByte
  cases v
  · exact lt_of_le_of_lt Nat.and_le_left hb
  · rw [if_pos rfl]
    have h2 : (2 : Nat) ^ i < 2 ^ 8 := Nat.pow_lt_pow_right (by omega) hi
    exact Nat.or_lt_two_pow hb h2

theorem getD_set_self {α : Type*} {l : List α} {i : Nat} (h : i < l.length)
    (x d : α) : (l.set i x).getD i d = x := by
  rw [List.getD_eq_getElem _ _ (by rw [List.length_set]; exact h)]
  exact List.getElem_set_self _

theorem getD_set_ne {α : Type*} {l : List α} {i j : Nat} (h : i ≠ j)
    (x d : α) : (l.set i x).getD j d = l.getD j d := by
  by_cases hj : j < l.length
  · rw [List.getD_eq_getElem _ _ (by rw [List.length_set]; exact hj),
      List.getD_eq_getElem _ _ hj]
    exact List.getElem_set_ne h _
  · rw [List.getD_eq_default _ _ (by rw [List.length_set]; omega),
      List.getD_eq_default _ _ (by omega)]

theorem getD_replicate_zero (n i : Nat) :
    (List.replicate n (0 : Nat)).getD i 0 = 0 := by
  by_cases hi : i < n
  · rw [List.getD_eq_getElem _ _ (by simpa using hi)]
    exact List.getElem_replicate _ _
  · rw [List.getD_eq_default _ _ (by simpa using hi)]

theorem goMul_eq {x y : Int} (h0 : 0 ≤ x * y) (hlt : x * y < 2 ^ 63) :
    goMul x y = x * y := by
  unfold goMul goInt64
  omega

theorem calculateSize_eq_ceil {rows columns : Int} (hm : 0 ≤ rows * columns)
    (hlt : rows * columns < 2 ^ 63) :
    calculateSize rows columns = (rows * columns + 7) / 8 := by
  have h1 : calculateSize rows columns =
      if (goMul rows columns).tmod 8 ≠ 0 then (goMul rows columns).tdiv 8 + 1
      else (goMul rows columns).tdiv 8 := rfl
  rw [h1, goMul_eq hm hlt, Int.tdiv_eq_ediv hm (by omega),
    Int.tmod_eq_emod hm (by omega)]
  split <;> omega

theorem calculateSize_nonneg {rows columns : Int} (hm : 0 ≤ rows * columns)
    (hlt : rows * columns < 2 ^ 63) : 0 ≤ calculateSize rows columns := by
  rw [calculateSize_eq_ceil hm hlt]
  exact Int.ediv_nonneg (by omega) (by omega)

theorem newNTS_bitmap_eq {rows columns : Int}
    (hcs : 0 ≤ calculateSize rows columns) :
    (newNTS rows columns).bitmap =
      List.replicate (calculateSize rows columns).toNat 0 := by
  show (goMake (calculateSize rows columns)).getD [] = _
  rw [goMake, if_pos hcs]
  rfl

theorem goUint64_eq {x : Int} (h0 : 0 ≤ x) (h : x < 2 ^ 64) : goUint64 x = x :=
  Int.emod_eq_of_lt h0 h

theorem goUint16_eq {x : Int} (h0 : 0 ≤ x) (h : x < 2 ^ 16) : goUint16 x = x :=
  Int.emod_eq_of_lt h0 h

theorem goIntOfUint64_eq {x : Int} (h : x < 2 ^ 63) : goIntOfUint64 x = x :=
  if_pos h

theorem wf_newNTS {rows columns : Int} (h0r : 0 ≤ rows) (hr : rows < 2 ^ 63)
    (h0c : 0 ≤ columns) (hc : columns < 2 ^ 16)
    (hprod : rows * columns < 2 ^ 63) : WF (newNTS rows columns) := by
  have hru : goUint64 rows = rows := goUint64_eq h0r (by omega)
  have hcu : goUint16 columns = columns := goUint16_eq h0c hc
  have hm : 0 ≤ rows * columns := mul_nonneg h0r h0c
  have hcs : 0 ≤ calculateSize rows columns := calculateSize_nonneg hm hprod
  refine ⟨?_, ?_, ?_, ?_, ?_, ?_, ?_⟩
  · show 0 ≤ goUint64 rows
    omega
  · show goUint64 rows < 2 ^ 63
    omega
  · show 0 ≤ goUint16 columns
    omega
  · show goUint16 columns < 2 ^ 16
    omega
  · show goUint64 rows * goUint16 columns < 2 ^ 63
    rw [hru, hcu]
    exact hprod
  · rw [newNTS_bitmap_eq hcs]
    show ((List.replicate (calculateSize rows columns).toNat 0).length : Int) =
      calculateSize (goUint64 rows) (goUint16 columns)
    rw [hru, hcu, List.length_replicate]
    omega
  · intro x hx
    rw [newNTS_bitmap_eq hcs] at hx
    rw [List.eq_of_mem_replicate hx]
    omega

theorem WF.Rows_eq {t : bitmaptable} (w : WF t) : t.Rows = t.rows := by
  unfold bitmaptable.Rows
  exact goIntOfUint64_eq w.rows_lt

theorem WF.Columns_eq (t : bitmaptable) : t.Columns = t.columns := rfl

theorem pos_nonneg {t : bitmaptable} (w : WF t) {row column : Int}
    (h0r : 0 ≤ row) (h0c : 0 ≤ column) : 0 ≤ row * t.columns + column := by
  have := mul_nonneg h0r w.cols_nonneg
  omega

theorem pos_lt {t : bitmaptable} {row column : Int} (hr : row < t.rows)
    (h0c : 0 ≤ column) (hc : column < t.columns) :
    row * t.columns + column < t.rows * t.columns :=
  calc row * t.columns + column < row * t.columns + t.columns := by omega
    _ = (row + 1) * t.columns := by ring
    _ ≤ t.rows * t.columns := mul_le_mul_of_nonneg_right (by omega) (by omega)

theorem byteIdx_lt {p rows columns : Int} (h0 : 0 ≤ p) (h : p < rows * columns)
    (hlt : rows * columns < 2 ^ 63) :
    p.tdiv 8 < calculateSize rows columns := by
  have hm : 0 ≤ rows * columns := by omega
  rw [Int.tdiv_eq_ediv h0 (by omega), calculateSize_eq_ceil hm hlt]
  omega

theorem Get_valid {t : bitmaptable} (w : WF t) {row column : Int}
    (h0r : 0 ≤ row) (hr : row < t.Rows) (h0c : 0 ≤ column)
    (hc : column < t.Columns) :
    t.Get row column =
      some (.ok (bufBit t.bitmap (row * t.columns + column).toNat)) := by
  have hrr : row < t.rows := by rw [← w.Rows_eq]; exact hr
  have hp0 : 0 ≤ row * t.columns + column := pos_nonneg w h0r h0c
  have hplt : row * t.columns + column < t.rows * t.columns := pos_lt hrr h0c hc
  have hby : (row * t.columns + column).tdiv 8 < calculateSize t.rows t.columns :=
    byteIdx_lt hp0 hplt w.prod_lt
  have hby0 : 0 ≤ (row * t.columns + column).tdiv 8 := by
    rw [Int.tdiv_eq_ediv hp0 (by omega)]
    exact Int.ediv_nonneg hp0 (by omega)
  have hbit0 : 0 ≤ (row * t.columns + column).tmod 8 := by
    rw [Int.tmod_eq_emod hp0 (by omega)]
    exact Int.emod_nonneg _ (by omega)
  have hbit8 : (row * t.columns + column).tmod 8 < 8 := by
    rw [Int.tmod_eq_emod hp0 (by omega)]
    exact Int.emod_lt_of_pos _ (by omega)
  have e1 : ((row * t.columns + column).tdiv 8).toNat =
      (row * t.columns + column).toNat / 8 := by
    rw [Int.tdiv_eq_ediv hp0 (by omega)]
    omega
  have e2 : ((row * t.columns + column).tmod 8).toNat =
      (row * t.columns + column).toNat % 8 := by
    rw [Int.tmod_eq_emod hp0 (by omega)]
    omega
  unfold bitmaptable.Get
  rw [if_neg (by push_neg; exact ⟨hc, hr⟩)]
  show (goIndex t.bitmap ((row * t.columns + column).tdiv 8)).bind
      (fun data => (getBit data ((row * t.columns + column).tmod 8)).map
        fun v => Except.ok v) = _
  rw [goIndex_pos hby0 (by rw [w.len_eq]; exact hby), Option.some_bind,
    getBit_eq hbit0 hbit8, Option.map_some', bufBit, e1, e2]

theorem Set_valid {t : bitmaptable} (w : WF t) {row column : Int}
    (h0r : 0 ≤ row) (hr : row < t.Rows) (h0c : 0 ≤ column)
    (hc : column < t.Columns) (v : Bool) :
    t.Set row column v =
      some (.ok (writeBitmap t (row * t.columns + column).toNat v)) := by
  have hrr : row < t.rows := by rw [← w.Rows_eq]; exact hr
  have hp0 : 0 ≤ row * t.columns + column := pos_nonneg w h0r h0c
  have hplt : row * t.columns + column < t.rows * t.columns := pos_lt hrr h0c hc
  have hby : (row * t.columns + column).tdiv 8 < calculateSize t.rows t.columns :=
    byteIdx_lt hp0 hplt w.prod_lt
  have hby0 : 0 ≤ (row * t.columns + column).tdiv 8 := by
    rw [Int.tdiv_eq_ediv hp0 (by omega)]
    exact Int.ediv_nonneg hp0 (by omega)
  have hbit0 : 0 ≤ (row * t.columns + column).tmod 8 := by
    rw [Int.tmod_eq_emod hp0 (by omega)]
    exact Int.emod_nonneg _ (by omega)
  have hbit8 : (row * t.columns + column).tmod 8 < 8 := by
    rw [Int.tmod_eq_emod hp0 (by omega)]
    exact Int.emod_lt_of_pos _ (by omega)
  have e1 : ((row * t.columns + column).tdiv 8).toNat =
      (row * t.columns + column).toNat / 8 := by
    rw [Int.tdiv_eq_ediv hp0 (by omega)]
    omega
  have e2 : ((row * t.columns + column).tmod 8).toNat =
      (row * t.columns + column).toNat % 8 := by
    rw [Int.tmod_eq_emod hp0 (by omega)]
    omega
  unfold bitmaptable.Set
  rw [if_neg (by push_neg; exact ⟨hc, hr⟩)]
  show (goIndex t.bitmap ((row * t.columns + column).tdiv 8)).bind
      (fun data => (setBit data ((row * t.columns + column).tmod 8) v).map
        fun nb => Except.ok
          (bitmaptable.mk t.rows t.columns
            (t.bitmap.set ((row * t.columns + column).tdiv 8).toNat nb))) = _
  rw [goIndex_pos hby0 (by rw [w.len_eq]; exact hby), Option.some_bind,
    setBit_eq hbit0 hbit8, Option.map_some', writeBitmap, e1, e2]

theorem byteIdxN_lt {t : bitmaptable} (w : WF t) {p : Nat}
    (hp : (p : Int) < t.rows * t.columns) : p / 8 < t.bitmap.length := by
  have h1 : ((p : Int)).tdiv 8 < calculateSize t.rows t.columns :=
    byteIdx_lt (by omega) hp w.prod_lt
  have e : ((p : Int)).tdiv 8 = ((p / 8 : Nat) : Int) := by
    rw [Int.tdiv_eq_ediv (by omega) (by omega)]
    omega
  have h2 := w.len_eq
  omega

theorem writeBitmap_wf {t : bitmaptable} (w : WF t) {p : Nat} (v : Bool)
    (hp : p / 8 < t.bitmap.length) : WF (writeBitmap t p v) := by
  refine ⟨w.rows_nonneg, w.rows_lt, w.cols_nonneg, w.cols_lt, w.prod_lt, ?_, ?_⟩
  · show (((t.bitmap.set _ _).length : Nat) : Int) = _
    rw [List.length_set]
    exact w.len_eq
  · intro x hx
    rcases List.mem_or_eq_of_mem_set hx with h | h
    · exact w.bytes_lt x h
    · subst h
      have hmem : t.bitmap.getD (p / 8) 0 ∈ t.bitmap := by
        rw [List.getD_eq_getElem _ _ hp]
        exact List.getElem_mem hp
      exact setByte_lt _ (w.bytes_lt _ hmem) (by omega) v

theorem bufBit_writeBitmap_self {t : bitmaptable} {p : Nat} (v : Bool)
    (hp : p / 8 < t.bitmap.length) : bufBit (writeBitmap t p v).bitmap p = v := by
  show ((t.bitmap.set (p / 8) _).getD (p / 8) 0).testBit (p % 8) = v
  rw [getD_set_self hp]
  exact setByte_testBit_self _ (by omega) v

theorem bufBit_writeBitmap_ne {t : bitmaptable} {p q : Nat} (v : Bool)
    (hne : q ≠ p) : bufBit (writeBitmap t p v).bitmap q = bufBit t.bitmap q := by
  show ((t.bitmap.set (p / 8) _).getD (q / 8) 0).testBit (q % 8) =
    (t.bitmap.getD (q / 8) 0).testBit (q % 8)
  by_cases hbyte : q / 8 = p / 8
  · have hbit : q % 8 ≠ p % 8 := by omega
    rw [hbyte]
    by_cases hp : p / 8 < t.bitmap.length
    · rw [getD_set_self hp]
      exact setByte_testBit_ne _ (by omega) (by omega) hbit v
    · rw [List.getD_eq_default _ _ (by rw [List.length_set]; omega),
        List.getD_eq_default _ _ (by omega)]
  · rw [getD_set_ne (by omega)]

theorem pos_inj {C r1 c1 r2 c2 : Int} (h0c1 : 0 ≤ c1) (hc1 : c1 < C)
    (h0c2 : 0 ≤ c2) (hc2 : c2 < C)
    (h : r1 * C + c1 = r2 * C + c2) : r1 = r2 ∧ c1 = c2 := by
  have e1 : (c1 + r1 * C) / C = r1 := by
    rw [Int.add_mul_ediv_right _ _ (by omega : C ≠ 0),
      Int.ediv_eq_zero_of_lt h0c1 hc1, zero_add]
  have e2 : (c2 + r2 * C) / C = r2 := by
    rw [Int.add_mul_ediv_right _ _ (by omega : C ≠ 0),
      Int.ediv_eq_zero_of_lt h0c2 hc2, zero_add]
  have hr : r1 = r2 := by
    rw [← e1, ← e2]
    congr 1
    omega
  subst hr
  exact ⟨rfl, by linarith⟩

theorem Get_no_guard {t : bitmaptable} {row column : Int}
    (hg : ¬(t.Columns ≤ column ∨ t.Rows ≤ row)) :
    t.Get row column = (goIndex t.bitmap (t.getPos row column).1).bind
      fun data => (getBit data (t.getPos row column).2).map
        fun v => Except.ok v := by
  unfold bitmaptable.Get
  rw [if_neg hg]

theorem Set_no_guard {t : bitmaptable} {row column : Int} (v : Bool)
    (hg : ¬(t.Columns ≤ column ∨ t.Rows ≤ row)) :
    t.Set row column v = (goIndex t.bitmap (t.getPos row column).1).bind
      fun data => (setBit data (t.getPos row column).2 v).map
        fun nb => Except.ok
          (bitmaptable.mk t.rows t.columns
            (t.bitmap.set (t.getPos row column).1.toNat nb)) := by
  unfold bitmaptable.Set
  rw [if_neg hg]

theorem Get_error_iff (t : bitmaptable) (row column : Int) :
    t.Get row column = some (.error .illegalIndex) ↔
      t.Columns ≤ column ∨ t.Rows ≤ row := by
  constructor
  · intro h
    by_contra hg
    rw [Get_no_guard hg] at h
    rcases hgi : goIndex t.bitmap (t.getPos row column).1 with _ | d
    · rw [hgi] at h
      simp at h
    · rw [hgi] at h
      rcases hgb : getBit d (t.getPos row column).2 with _ | b
      · simp [hgb] at h
      · simp [hgb] at h
  · intro h
    unfold bitmaptable.Get
    rw [if_pos h]

theorem Set_error_iff (t : bitmaptable) (row column : Int) (v : Bool) :
    t.Set row column v = some (.error .illegalIndex) ↔
      t.Columns ≤ column ∨ t.Rows ≤ row := by
  constructor
  · intro h
    by_contra hg
    rw [Set_no_guard v hg] at h
    rcases hgi : goIndex t.bitmap (t.getPos row column).1 with _ | d
    · rw [hgi] at h
      simp at h
    · rw [hgi] at h
      rcases hgb : setBit d (t.getPos row column).2 v with _ | nb
      · simp [hgb] at h
      · simp [hgb] at h
  · intro h
    unfold bitmaptable.Set
    rw [if_pos h]

/-!
## Claim theorems
-/

/-- **C1** (round-trip law): on every well-formed table, for every
coordinate pair with `0 ≤ row < rowCount` and
`0 ≤ column < columnCount`, `Set(row, column, v)` succeeds with no
error and a subsequent `Get(row, column)` returns `v` with no error —
for `v = true` and `v = false` alike. -/
theorem roundtrip_set_get {t : bitmaptable} (w : WF t) {row column : Int}
    (h0r : 0 ≤ row) (hr : row < t.Rows) (h0c : 0 ≤ column)
    (hc : column < t.Columns) (v : Bool) :
    ∃ t', t.Set row column v = some (.ok t') ∧
      t'.Get row column = some (.ok v) := by
  refine ⟨_, Set_valid w h0r hr h0c hc v, ?_⟩
  have hrr : row < t.rows := by rw [← w.Rows_eq]; exact hr
  have hp0 := pos_nonneg w h0r h0c
  have hplt := pos_lt hrr h0c hc
  have hpltN : (((row * t.columns + column).toNat : Int)) < t.rows * t.columns := by
    omega
  have hbl : (row * t.columns + column).toNat / 8 < t.bitmap.length :=
    byteIdxN_lt w hpltN
  have w' : WF (writeBitmap t (row * t.columns + column).toNat v) :=
    writeBitmap_wf w v hbl
  have hr' : row < (writeBitmap t (row * t.columns + column).toNat v).Rows := by
    rw [w'.Rows_eq]
    exact hrr
  rw [Get_valid w' h0r hr' h0c hc]
  rw [show (writeBitmap t (row * t.columns + column).toNat v).columns
      = t.columns from rfl]
  rw [bufBit_writeBitmap_self v hbl]

/-- Witness for C1 at a concrete input: a 4×4 table, coordinate (2,3),
set to true then read back. -/
theorem roundtrip_set_get_witness :
    ∃ t', (newNTS 4 4).Set 2 3 true = some (.ok t') ∧
      t'.Get 2 3 = some (.ok true) :=
  roundtrip_set_get (wf_newNTS (by decide) (by decide) (by decide) (by decide) (by decide))
    (by decide) (by decide) (by decide) (by decide) true

/-- **C2** (frame property of `Set`): on every well-formed table, for
valid coordinates `(r1,c1) ≠ (r2,c2)`, `Set(r1,c1,v)` succeeds, leaves
`Get(r2,c2)` unchanged from its prior value, and mutates exactly one
bit of the buffer: the bit at linear position `r1*columnCount+c1`
becomes `v` while every other buffer bit keeps its value. -/
theorem set_frame {t : bitmaptable} (w : WF t) {r1 c1 r2 c2 : Int}
    (h0r1 : 0 ≤ r1) (hr1 : r1 < t.Rows) (h0c1 : 0 ≤ c1) (hc1 : c1 < t.Columns)
    (h0r2 : 0 ≤ r2) (hr2 : r2 < t.Rows) (h0c2 : 0 ≤ c2) (hc2 : c2 < t.Columns)
    (hne : (r1, c1) ≠ (r2, c2)) (v : Bool) :
    ∃ t', t.Set r1 c1 v = some (.ok t') ∧
      t'.Get r2 c2 = t.Get r2 c2 ∧
      bufBit t'.bitmap (r1 * t.columns + c1).toNat = v ∧
      ∀ p : Nat, p ≠ (r1 * t.columns + c1).toNat →
        bufBit t'.bitmap p = bufBit t.bitmap p := by
  refine ⟨_, Set_valid w h0r1 hr1 h0c1 hc1 v, ?_, ?_, ?_⟩
  · have hrr1 : r1 < t.rows := by rw [← w.Rows_eq]; exact hr1
    have hrr2 : r2 < t.rows := by rw [← w.Rows_eq]; exact hr2
    have hp0 := pos_nonneg w h0r1 h0c1
    have hplt := pos_lt hrr1 h0c1 hc1
    have hq0 := pos_nonneg w h0r2 h0c2
    have hbl : (r1 * t.columns + c1).toNat / 8 < t.bitmap.length :=
      byteIdxN_lt w (by omega)
    have w' : WF (writeBitmap t (r1 * t.columns + c1).toNat v) :=
      writeBitmap_wf w v hbl
    have hr2' : r2 < (writeBitmap t (r1 * t.columns + c1).toNat v).Rows := by
      rw [w'.Rows_eq]
      exact hrr2
    rw [Get_valid w' h0r2 hr2' h0c2 hc2, Get_valid w h0r2 hr2 h0c2 hc2]
    rw [show (writeBitmap t (r1 * t.columns + c1).toNat v).columns
        = t.columns from rfl]
    have hqp : (r2 * t.columns + c2).toNat ≠ (r1 * t.columns + c1).toNat := by
      intro he
      have : r2 * t.columns + c2 = r1 * t.columns + c1 := by omega
      rcases pos_inj h0c2 hc2 h0c1 hc1 this with ⟨e1, e2⟩
      exact hne (by rw [e1, e2])
    rw [bufBit_writeBitmap_ne v hqp]
  · have hrr1 : r1 < t.rows := by rw [← w.Rows_eq]; exact hr1
    have hp0 := pos_nonneg w h0r1 h0c1
    have hplt := pos_lt hrr1 h0c1 hc1
    exact bufBit_writeBitmap_self v (byteIdxN_lt w (by omega))
  · intro p hp
    exact bufBit_writeBitmap_ne v hp

/-- Witness for C2 at a concrete input: a 10×5 table, `Set(1,2,true)`
leaves `Get(1,3)` at false and flips only linear position 7. -/
theorem set_frame_witness :
    ∃ t', (newNTS 10 5).Set 1 2 true = some (.ok t') ∧
      t'.Get 1 3 = (newNTS 10 5).Get 1 3 ∧
      bufBit t'.bitmap ((1 : Int) * (newNTS 10 5).columns + 2).toNat = true ∧
      ∀ p : Nat, p ≠ ((1 : Int) * (newNTS 10 5).columns + 2).toNat →
        bufBit t'.bitmap p = bufBit (newNTS 10 5).bitmap p :=
  set_frame (wf_newNTS (by decide) (by decide) (by decide) (by decide) (by decide))
    (by decide) (by decide) (by decide) (by decide)
    (by decide) (by decide) (by decide) (by decide) (by decide) true

/-- **C3** (address algorithm): on every well-formed table and valid
coordinate, `getPos` returns byte index `linearPosition / 8` and bit
index `linearPosition % 8` for `linearPosition = row*columnCount +
column` (Go's truncated division, which agrees with plain division
here); `Get` reads exactly the bit at that linear position under the
LSB-first convention (`bufBit`), and `Set v` rewrites exactly that
addressed byte; concretely, with `columnCount = 1` the bit of row 39
is byte 4, bit 7. -/
theorem address_algorithm :
    (∀ t : bitmaptable, WF t → ∀ row column : Int,
      0 ≤ row → row < t.Rows → 0 ≤ column → column < t.Columns →
      t.getPos row column =
        ((row * t.Columns + column).tdiv 8, (row * t.Columns + column).tmod 8) ∧
      t.Get row column =
        some (.ok (bufBit t.bitmap (row * t.Columns + column).toNat)) ∧
      ∀ v, t.Set row column v =
        some (.ok (writeBitmap t (row * t.Columns + column).toNat v))) ∧
    (newNTS 50 1).getPos 39 0 = (4, 7) := by
  constructor
  · intro t w row column h0r hr h0c hc
    exact ⟨rfl, Get_valid w h0r hr h0c hc,
      fun v => Set_valid w h0r hr h0c hc v⟩
  · decide

/-- Witness for C3's quantified part at a concrete input: the 50×1
table of the repository's own test, row 39. -/
theorem address_algorithm_witness :
    (newNTS 50 1).getPos 39 0 =
      (((39 : Int) * (newNTS 50 1).Columns + 0).tdiv 8,
        ((39 : Int) * (newNTS 50 1).Columns + 0).tmod 8) ∧
    (newNTS 50 1).Get 39 0 =
      some (.ok (bufBit (newNTS 50 1).bitmap
        ((39 : Int) * (newNTS 50 1).Columns + 0).toNat)) := by
  have h := (address_algorithm.1 (newNTS 50 1)
    (wf_newNTS (by decide) (by decide) (by decide) (by decide) (by decide))
    39 0 (by decide) (by decide) (by decide) (by decide))
  exact ⟨h.1, h.2.1⟩

/-- **C10** (implicit in-bounds buffer access): on every well-formed
table with positive row and column counts, for every valid coordinate
the byte index computed by the address algorithm is strictly below the
buffer length `calculateSize`, and consequently `Get` and `Set` reach
the success path — they never touch the buffer outside its bounds
(no `none`/panic outcome and no error). -/
theorem access_in_bounds {t : bitmaptable} (w : WF t) (hrow : 0 < t.rows)
    (hcol : 0 < t.columns) {row column : Int} (h0r : 0 ≤ row)
    (hr : row < t.Rows) (h0c : 0 ≤ column) (hc : column < t.Columns) :
    (row * t.Columns + column).tdiv 8 < calculateSize t.rows t.columns ∧
    (∃ b, t.Get row column = some (.ok b)) ∧
    ∀ v, ∃ t', t.Set row column v = some (.ok t') := by
  have hrr : row < t.rows := by rw [← w.Rows_eq]; exact hr
  exact ⟨byteIdx_lt (pos_nonneg w h0r h0c) (pos_lt hrr h0c hc) w.prod_lt,
    ⟨_, Get_valid w h0r hr h0c hc⟩,
    fun v => ⟨_, Set_valid w h0r hr h0c hc v⟩⟩

/-- Witness for C10 at a concrete input: the 4×4 table at its last
cell (3,3), linear position 15, byte index 1 < 2. -/
theorem access_in_bounds_witness :
    ((3 : Int) * (newNTS 4 4).Columns + 3).tdiv 8 <
      calculateSize (newNTS 4 4).rows (newNTS 4 4).columns ∧
    (∃ b, (newNTS 4 4).Get 3 3 = some (.ok b)) ∧
    ∀ v, ∃ t', (newNTS 4 4).Set 3 3 v = some (.ok t') :=
  access_in_bounds (wf_newNTS (by decide) (by decide) (by decide) (by decide) (by decide))
    (by decide) (by decide) (by decide) (by decide) (by decide) (by decide)

/-- **C4 (amended)**: for every non-negative `rowCount` and
`columnCount` whose product fits the 64-bit `int` arithmetic of
`calculateSize` (`rowCount * columnCount < 2^63`; beyond it the Go
multiplication wraps), `Construct` yields a zero-filled buffer of
length exactly `ceil(rowCount*columnCount/8)`; and — provided
`columnCount` also fits the 16-bit column field
(`columnCount < 2^16`; the row count of any Go caller is below `2^63`
by the `int` type) — `Get` on the fresh table returns false with no
error for every valid coordinate. -/
theorem construct_postcondition {rows columns : Int} (h0r : 0 ≤ rows)
    (h0c : 0 ≤ columns) (hprod : rows * columns < 2 ^ 63) :
    ((newNTS rows columns).bitmap.length : Int) = (rows * columns + 7) / 8 ∧
    (rows < 2 ^ 63 → columns < 2 ^ 16 →
      ∀ row column : Int, 0 ≤ row → row < rows → 0 ≤ column →
        column < columns →
        (newNTS rows columns).Get row column = some (.ok false)) := by
  have hm : 0 ≤ rows * columns := mul_nonneg h0r h0c
  have hcs : 0 ≤ calculateSize rows columns := calculateSize_nonneg hm hprod
  constructor
  · rw [newNTS_bitmap_eq hcs]
    show ((List.replicate (calculateSize rows columns).toNat 0).length : Int) = _
    rw [List.length_replicate, ← calculateSize_eq_ceil hm hprod]
    omega
  · intro hr63 hc16 row column h0row hrow h0col hcol
    have w := wf_newNTS h0r hr63 h0c hc16 hprod
    have hR : (newNTS rows columns).Rows = rows := by
      rw [w.Rows_eq]
      show goUint64 rows = rows
      exact goUint64_eq h0r (by omega)
    have hC : (newNTS rows columns).Columns = columns := goUint16_eq h0c hc16
    rw [Get_valid w h0row (by rw [hR]; exact hrow) h0col (by rw [hC]; exact hcol)]
    have hz : bufBit (newNTS rows columns).bitmap
        ((row * (newNTS rows columns).columns + column).toNat) = false := by
      rw [newNTS_bitmap_eq hcs]
      show ((List.replicate _ 0).getD _ 0).testBit _ = false
      rw [getD_replicate_zero]
      exact Nat.zero_testBit _
    rw [hz]

/-- C4 as stated fails on the code in two ways.  Overflow:
`Construct(2^62, 4)` has a non-negative size whose 64-bit product
wraps to 0, so the buffer is empty instead of the `(2^64+7)/8` bytes
the ceil formula demands, and `Get(0, 0)` — valid for those counts —
panics on the empty buffer instead of returning false.  Truncation:
`columnCount = 65537` is non-negative and `(0, 1)` is a valid
coordinate for it, yet `Get` returns `IllegalIndex` instead of false,
because the column count is stored in a 16-bit field (65537 becomes
1). -/
theorem construct_counterexample :
    (newNTS (2 ^ 62) 4).bitmap.length = 0 ∧
    ((newNTS (2 ^ 62) 4).bitmap.length : Int) ≠ ((2 : Int) ^ 62 * 4 + 7) / 8 ∧
    (newNTS (2 ^ 62) 4).Get 0 0 = none ∧
    (newNTS 1 65537).Get 0 1 = some (.error .illegalIndex) ∧
    (newNTS 1 65537).Get 0 1 ≠ some (.ok false) :=
  ⟨by decide, by decide, by decide, by decide, by decide⟩

/-- Witness for C4's amended statement: the two concrete sizes named
by the claim, and a fresh-table read. -/
theorem construct_postcondition_witness :
    ((newNTS 10 5).bitmap.length : Int) = ((10 : Int) * 5 + 7) / 8 ∧
    (newNTS 10 5).bitmap.length = 7 ∧
    (newNTS 4 4).bitmap.length = 2 ∧
    (newNTS 10 5).Get 9 4 = some (.ok false) :=
  ⟨(construct_postcondition (by decide) (by decide) (by decide)).1, by decide,
    by decide,
    (construct_postcondition (by decide) (by decide) (by decide)).2 (by decide)
      (by decide) 9 4 (by decide) (by decide) (by decide) (by decide)⟩

/-- **C5 (amended)**: on every well-formed table, `Get` and `Set`
return the `IllegalIndex` error exactly when `column ≥ columnCount` or
`row ≥ rowCount`; for non-negative in-bounds coordinates they succeed
with no error.  (For a negative coordinate below the failed upper
bound the source does not return: it panics or aliases another cell,
see the counterexample.) -/
theorem bounds_error_semantics {t : bitmaptable} (w : WF t)
    (row column : Int) (v : Bool) :
    (t.Get row column = some (.error .illegalIndex) ↔
      t.Columns ≤ column ∨ t.Rows ≤ row) ∧
    (t.Set row column v = some (.error .illegalIndex) ↔
      t.Columns ≤ column ∨ t.Rows ≤ row) ∧
    (0 ≤ row → 0 ≤ column → row < t.Rows → column < t.Columns →
      (∃ b, t.Get row column = some (.ok b)) ∧
      ∃ t', t.Set row column v = some (.ok t')) :=
  ⟨Get_error_iff t row column, Set_error_iff t row column v,
    fun h0r h0c hr hc =>
      ⟨⟨_, Get_valid w h0r hr h0c hc⟩, ⟨_, Set_valid w h0r hr h0c hc v⟩⟩⟩

/-- C5 as stated fails on the code: on the 1000-row table, row `-8`
violates neither `column ≥ columnCount` nor `row ≥ rowCount`, so the
claim promises an error-free return, but the call does not return at
all — it panics on a negative slice index (`none`). -/
theorem bounds_error_counterexample :
    (newNTS 1000 12).Get (-8) 0 = none := by decide

/-- Witness for C5's amended statement on the claim's concrete table:
rows 1001 and 1000 fail with `IllegalIndex`, row 999 succeeds. -/
theorem bounds_error_semantics_witness :
    (newNTS 1000 12).Get 1001 0 = some (.error .illegalIndex) ∧
    (newNTS 1000 12).Set 1001 0 true = some (.error .illegalIndex) ∧
    (newNTS 1000 12).Get 1000 0 = some (.error .illegalIndex) ∧
    (∃ b, (newNTS 1000 12).Get 999 0 = some (.ok b)) ∧
    ∃ t', (newNTS 1000 12).Set 999 0 true = some (.ok t') := by
  have w : WF (newNTS 1000 12) :=
    wf_newNTS (by decide) (by decide) (by decide) (by decide) (by decide)
  have hin := (bounds_error_semantics w 999 0 true).2.2
    (by decide) (by decide) (by decide) (by decide)
  exact ⟨(bounds_error_semantics w 1001 0 true).1.mpr (by decide),
    (bounds_error_semantics w 1001 0 true).2.1.mpr (by decide),
    (bounds_error_semantics w 1000 0 true).1.mpr (by decide),
    hin.1, hin.2⟩

/-- **C6**: the claim states the intended contract (a negative row or
column is reported as `IllegalIndex`, never a silent wrong-bit access
or a panic), but the code only checks the upper bounds.  At the
failing input `Set(1, -1, true)` on a 10×5 table the call succeeds
with no error and silently sets the bit of the other cell `(0, 4)`
(linear position 4); and `Get(-1, 0)` panics (`none`) on a negative
table index instead of returning the error. -/
theorem negative_index_bug :
    (newNTS 10 5).Set 1 (-1) true =
      some (.ok ⟨10, 5, [16, 0, 0, 0, 0, 0, 0]⟩) ∧
    (⟨10, 5, [16, 0, 0, 0, 0, 0, 0]⟩ : bitmaptable).Get 0 4 =
      some (.ok true) ∧
    (newNTS 10 5).Get (-1) 0 = none :=
  ⟨by decide, by decide, by decide⟩

/-- **C9 (amended)**: for every table constructed from a non-negative
`rowCount` in the 64-bit `int` range and a `columnCount` below `2^16`
(the width of the column field), `Rows()` returns `rowCount` and
`Columns()` returns `columnCount`; both are pure and always succeed. -/
theorem accessors_correct {rows columns : Int} (h0r : 0 ≤ rows)
    (hr : rows < 2 ^ 63) (h0c : 0 ≤ columns) (hc : columns < 2 ^ 16) :
    (newNTS rows columns).Rows = rows ∧
      (newNTS rows columns).Columns = columns := by
  constructor
  · show goIntOfUint64 (goUint64 rows) = rows
    rw [goUint64_eq h0r (by omega)]
    exact goIntOfUint64_eq hr
  · exact goUint16_eq h0c hc

/-- C9 as stated fails on the code: `columnCount = 65536` is
non-negative, but the column count is stored in a 16-bit field, so
`Columns()` returns 0 instead of 65536. -/
theorem accessors_counterexample :
    (newNTS 1 65536).Columns = 0 ∧ (newNTS 1 65536).Columns ≠ 65536 :=
  ⟨by decide, by decide⟩

/-- Witness for C9's amended statement at the repository's own test
configuration 10×5. -/
theorem accessors_correct_witness :
    (newNTS 10 5).Rows = 10 ∧ (newNTS 10 5).Columns = 5 :=
  accessors_correct (by decide) (by decide) (by decide) (by decide)

/-- **C7** (dual-mode raw access): for every heap-resident table whose
buffer reference is live, `Data(false)` returns the table's own slice
reference with the heap untouched, so a caller's byte write through
that reference is exactly a write to the table's buffer as observed by
`Get`; `Data(true)` returns a fresh reference (distinct from the
table's) holding an equal-content copy, and a caller's byte write
through the copy leaves every subsequent `Get` on the table unchanged. -/
theorem data_dual_mode (h : Heap) (t : HTable)
    (href : t.bufRef < h.slices.length) :
    (t.Data h false = (h, t.bufRef) ∧
      ∀ i v : Nat, ∀ row column : Int,
        t.Get (h.writeByte (t.Data h false).2 i v) row column =
          bitmaptable.Get ⟨t.rows, t.columns, (h.slice t.bufRef).set i v⟩
            row column) ∧
    ((t.Data h true).2 ≠ t.bufRef ∧
      (t.Data h true).1.slice (t.Data h true).2 = h.slice t.bufRef ∧
      ∀ i v : Nat, ∀ row column : Int,
        t.Get ((t.Data h true).1.writeByte (t.Data h true).2 i v) row column =
          t.Get h row column) := by
  have hfalse : t.Data h false = (h, t.bufRef) := rfl
  have htrue : t.Data h true =
      (⟨h.slices ++ [h.slice t.bufRef]⟩, h.slices.length) := rfl
  refine ⟨⟨hfalse, ?_⟩, ?_, ?_, ?_⟩
  · intro i v row column
    have halias : t.toTable (h.writeByte (t.Data h false).2 i v) =
        ⟨t.rows, t.columns, (h.slice t.bufRef).set i v⟩ := by
      rw [hfalse]
      show bitmaptable.mk t.rows t.columns
        ((h.slices.set t.bufRef ((h.slice t.bufRef).set i v)).getD t.bufRef [])
        = _
      rw [getD_set_self href]
    show (t.toTable (h.writeByte (t.Data h false).2 i v)).Get row column = _
    rw [halias]
  · rw [htrue]
    omega
  · rw [htrue]
    show (h.slices ++ [h.slice t.bufRef]).getD h.slices.length [] = _
    rw [List.getD_append_right _ _ _ _ (le_refl _), Nat.sub_self]
    rfl
  · intro i v row column
    have hiso : t.toTable ((t.Data h true).1.writeByte (t.Data h true).2 i v) =
        t.toTable h := by
      rw [htrue]
      show bitmaptable.mk t.rows t.columns
        (((h.slices ++ [h.slice t.bufRef]).set h.slices.length _).getD
          t.bufRef []) = bitmaptable.mk t.rows t.columns
            (h.slices.getD t.bufRef [])
      rw [getD_set_ne (by omega), List.getD_append _ _ _ _ href]
    show (t.toTable ((t.Data h true).1.writeByte (t.Data h true).2 i v)).Get
      row column = (t.toTable h).Get row column
    rw [hiso]

/-- Witness for C7 at a concrete input: a one-slice heap holding the
2-byte buffer of a 4×4 table. -/
theorem data_dual_mode_witness :
    ((HTable.mk 4 4 0).Data ⟨[[0, 0]]⟩ false = (⟨[[0, 0]]⟩, 0) ∧
      ∀ i v : Nat, ∀ row column : Int,
        (HTable.mk 4 4 0).Get
            (Heap.writeByte ⟨[[0, 0]]⟩
              ((HTable.mk 4 4 0).Data ⟨[[0, 0]]⟩ false).2 i v) row column =
          bitmaptable.Get
            ⟨4, 4, (Heap.slice ⟨[[0, 0]]⟩ 0).set i v⟩ row column) ∧
    (((HTable.mk 4 4 0).Data ⟨[[0, 0]]⟩ true).2 ≠ 0 ∧
      ((HTable.mk 4 4 0).Data ⟨[[0, 0]]⟩ true).1.slice
          ((HTable.mk 4 4 0).Data ⟨[[0, 0]]⟩ true).2 =
        Heap.slice ⟨[[0, 0]]⟩ 0 ∧
      ∀ i v : Nat, ∀ row column : Int,
        (HTable.mk 4 4 0).Get
            (((HTable.mk 4 4 0).Data ⟨[[0, 0]]⟩ true).1.writeByte
              ((HTable.mk 4 4 0).Data ⟨[[0, 0]]⟩ true).2 i v) row column =
          (HTable.mk 4 4 0).Get ⟨[[0, 0]]⟩ row column) :=
  data_dual_mode ⟨[[0, 0]]⟩ (HTable.mk 4 4 0) (by decide)

theorem runOpTS_eq (t : bitmaptable) (op : Op) :
    runOpTS ⟨t⟩ op = ((runOp t op).1, ⟨(runOp t op).2⟩) := by
  cases op with
  | rows => rfl
  | columns => rfl
  | get r c => rfl
  | data c => rfl
  | set r c v =>
    show (match (ts.mk t).Set r c v with
      | none => (Out.setRes none, ts.mk t)
      | some (.error e) => (Out.setRes (some (some e)), ts.mk t)
      | some (.ok t') => (Out.setRes (some none), t')) = _
    rcases hs : t.Set r c v with _ | e
    · simp [runOp, ts.Set, hs]
    · rcases e with e | t' <;> simp [runOp, ts.Set, hs, Except.map]

theorem runTS_eq (ops : List Op) : ∀ t : bitmaptable,
    runTS ⟨t⟩ ops = ((run t ops).1, ⟨(run t ops).2⟩) := by
  induction ops with
  | nil => intro t; rfl
  | cons op ops ih =>
    intro t
    show (let s := runOpTS ⟨t⟩ op
      let rest := runTS s.2 ops
      (s.1 :: rest.1, rest.2)) = _
    rw [show (run t (op :: ops)) = (let s := runOp t op
      let rest := run s.2 ops
      (s.1 :: rest.1, rest.2)) from rfl]
    simp only [runOpTS_eq t op]
    rcases hstep : runOp t op with ⟨o, t2⟩
    simp [hstep, ih t2]

/-- **C8** (variant equivalence): for every sequence of
`Rows`/`Columns`/`Get`/`Set`/`Data` calls executed sequentially, the
thread-safe table built by `newTS(rowCount, columnCount)` produces
exactly the same outputs and reaches exactly the same buffer state as
the plain table built by `newNTS(rowCount, columnCount)`. -/
theorem ts_equiv (rows columns : Int) (ops : List Op) :
    runTS (newTS rows columns) ops =
      ((run (newNTS rows columns) ops).1,
        ⟨(run (newNTS rows columns) ops).2⟩) :=
  runTS_eq ops (newNTS rows columns)
